import Mathlib

/-!
Verification development for `flaw_nozzle_finder.py`.

The core of the program is embedded shallowly:

* `pyRound` models Python's built-in `round` (round-half-to-even on exact
  values).
* `matchLoop` models the matching loop of `find_nozzles` (lines 96-104 of
  the source); a Python `ZeroDivisionError` (float division by `0.0`)
  is modelled as `Option.none`.
* `find_nozzles` models the function of the same name (lines 79-105).
* `rotate_to_vertical`, `processOne`, `processKeys`, `process_labels`
  model the orientation estimator and `process_labels` (lines 57-76 and
  108-132); `combinedOf` models the combined-index union of line 210.

Numbers are embedded as elements of a linear ordered field with a floor
function (rationals for executable instances, reals for the parts that
involve trigonometry).
-/

namespace FlawNozzle

/-- Python's `round`: round half to even (banker's rounding).  On an exact
value `x` with fractional part below `1/2` it returns the floor, above
`1/2` the ceiling, and exactly at `1/2` the even neighbour. -/
def pyRound {α : Type} [LinearOrderedField α] [FloorRing α] (x : α) : ℤ :=
  if Int.fract x < 1/2 then ⌊x⌋
  else if 1/2 < Int.fract x then ⌊x⌋ + 1
  else if ⌊x⌋ % 2 = 0 then ⌊x⌋ else ⌊x⌋ + 1

/-- Result record of `find_nozzles`: the Python function returns the tuple
`(indices, out_of_range, start, end, step, details)`. -/
structure FindResult (α : Type) where
  nozzle_indices : List ℤ
  out_of_range : List (α × α)
  start : α
  endp : α
  step : α
  details : List (α × α × ℤ × Bool)
  deriving DecidableEq

/-- Continuous grid position of a coordinate,
`pos = (x - start) / step + 1` (line 97 of the source). -/
def posOf {α : Type} [LinearOrderedField α] (start step x : α) : α :=
  (x - start) / step + 1

/-- Tolerance test `abs(rounded - pos) < tolerance` of line 99 of the
source, as a Boolean; `rounded` is `round(pos)` of line 98. -/
def acceptB {α : Type} [LinearOrderedField α] [FloorRing α]
    (start step tolerance x : α) : Bool :=
  decide (|((pyRound (posOf start step x) : ℤ) : α) - posOf start step x| < tolerance)

/-- Loop of `find_nozzles` (source lines 96-104): for every interior
coordinate `x` compute `pos = (x - start) / step + 1`, round it, test
`|rounded - pos| < tolerance`, and append to the index list or the
out-of-range list, and always to the detail list.  Python raises
`ZeroDivisionError` when `step` is `0.0` and the division of line 97 is
executed; that is modelled by `none`. -/
def matchLoop {α : Type} [LinearOrderedField α] [FloorRing α]
    (start step tolerance : α) : List α →
    Option (List ℤ × List (α × α) × List (α × α × ℤ × Bool))
  | [] => some ([], [], [])
  | x :: rest =>
    if step = 0 then none
    else
      match matchLoop start step tolerance rest with
      | none => none
      | some (inds, outs, ds) =>
        some (if acceptB start step tolerance x
                then pyRound (posOf start step x) :: inds else inds,
              if acceptB start step tolerance x
                then outs else (x, posOf start step x) :: outs,
              (x, posOf start step x, pyRound (posOf start step x),
                acceptB start step tolerance x) :: ds)

/-- Interior coordinates: the Python slice `sorted_x[1:-1]` of line 88,
where `sorted_x` is the stable ascending sort of line 85. -/
def midOf {α : Type} [LinearOrderedField α] (xs : List α) : List α :=
  ((List.insertionSort (· ≤ ·) xs).drop 1).dropLast

/-- Start of the grid: minimum of the coordinates (line 86 of the source). -/
def startOf {α : Type} [LinearOrderedField α] (xs : List α) : α :=
  (List.insertionSort (· ≤ ·) xs).headD 0

/-- End of the grid: maximum of the coordinates (line 87 of the source). -/
def endOf {α : Type} [LinearOrderedField α] (xs : List α) : α :=
  (List.insertionSort (· ≤ ·) xs).getLastD 0

/-- Grid step `(end - start) / (nozzle_count - 1)` (line 92 of the source). -/
def stepOf {α : Type} [LinearOrderedField α] (xs : List α) (nozzle_count : ℤ) : α :=
  (endOf xs - startOf xs) / ((nozzle_count : α) - 1)

/-- Embedding of `find_nozzles` (source lines 79-105).  Python's `sorted`
is a stable ascending sort, modelled by insertion sort.  Note that the
`nozzle_count == 1` branch of line 89 is kept even though the guard of
line 82 already returns whenever `nozzle_count < 2`. -/
def find_nozzles {α : Type} [LinearOrderedField α] [FloorRing α]
    (xs : List α) (nozzle_count : ℤ) (tolerance : α) : Option (FindResult α) :=
  if xs.length < 2 ∨ nozzle_count < 2 then
    some ⟨[], [], 0, 0, 0, []⟩
  else if nozzle_count = 1 then
    some ⟨[], [], startOf xs, endOf xs, 0, []⟩
  else
    match matchLoop (startOf xs) (stepOf xs nozzle_count) tolerance (midOf xs) with
    | none => none
    | some (inds, outs, ds) =>
      some ⟨inds, outs, startOf xs, endOf xs, stepOf xs nozzle_count, ds⟩

/-- Return value of `rotate_to_vertical`: the Python function returns the
bare empty list when fewer than 2 points are supplied (line 59) and the
pair `(angle, rotated)` otherwise (line 76), so its result is a sum. -/
inductive RotResult where
  | noPoints : RotResult
  | rot : ℝ → List (ℝ × ℝ) → RotResult

/-- Python's `math.atan2(y, x)`. -/
noncomputable def atan2 (y x : ℝ) : ℝ :=
  if 0 < x then Real.arctan (y / x)
  else if x < 0 ∧ 0 ≤ y then Real.arctan (y / x) + Real.pi
  else if x < 0 ∧ y < 0 then Real.arctan (y / x) - Real.pi
  else if x = 0 ∧ 0 < y then Real.pi / 2
  else if x = 0 ∧ y < 0 then -(Real.pi / 2)
  else 0

/-- Comparison of points by x-coordinate, the key of the sort on line 61. -/
noncomputable instance : DecidableRel (fun p q : ℝ × ℝ => p.1 ≤ q.1) :=
  fun p q => Real.decidableLE p.1 q.1

/-- Embedding of `rotate_to_vertical` (source lines 57-76): sort the points
by x, take the displacement between the extremes, and rotate every point by
the negative of `atan2(dy, dx)`. -/
noncomputable def rotate_to_vertical (points : List (ℝ × ℝ)) : RotResult :=
  if points.length < 2 then RotResult.noPoints
  else
    let pts := List.insertionSort (fun p q => p.1 ≤ q.1) points
    let x1 := (pts.headD (0, 0)).1
    let y1 := (pts.headD (0, 0)).2
    let x2 := (pts.getLastD (0, 0)).1
    let y2 := (pts.getLastD (0, 0)).2
    let dx := x2 - x1
    let dy := y2 - y1
    let angle := atan2 dy dx
    let cos_a := Real.cos (-angle)
    let sin_a := Real.sin (-angle)
    RotResult.rot angle
      (pts.map (fun p => (p.1 * cos_a - p.2 * sin_a, p.1 * sin_a + p.2 * cos_a)))

/-- Rotated point sequence produced by `rotate_to_vertical`, empty in the
degenerate case. -/
noncomputable def rotatedOf (points : List (ℝ × ℝ)) : List (ℝ × ℝ) :=
  match rotate_to_vertical points with
  | RotResult.noPoints => []
  | RotResult.rot _ r => r

/-- Python's `math.degrees`. -/
noncomputable def degrees (x : ℝ) : ℝ := x * 180 / Real.pi

/-- Embedding of the dataclass `LabelData` (source lines 16-26); the label
type is a parameter (Python uses strings). -/
structure LabelData (L : Type) where
  label : L
  points : List (ℝ × ℝ)
  nozzle_indices : List ℤ
  out_of_range : List (ℝ × ℝ)
  angle_deg : ℝ
  step : ℝ
  start : ℝ
  endp : ℝ
  details : List (ℝ × ℝ × ℤ × Bool)

/-- Dictionary access `groups[label]` on an association list. -/
def getGroup {L : Type} [DecidableEq L] (a : L) :
    List (L × List (ℝ × ℝ)) → List (ℝ × ℝ)
  | [] => []
  | (k, v) :: t => if a = k then v else getGroup a t

/-- Line 116 of the source:
`angle, rotated = rotate_to_vertical(pts) if len(pts) >= 2 else (0.0, [])`.
With at least two points the pair returned by `rotate_to_vertical` is
unpacked; otherwise the caller supplies angle `0.0` and an empty list
itself (the `noPoints` shape can only arise from fewer than two points). -/
noncomputable def rotPairOf (pts : List (ℝ × ℝ)) : ℝ × List (ℝ × ℝ) :=
  match (if 2 ≤ pts.length then rotate_to_vertical pts else RotResult.noPoints) with
  | RotResult.noPoints => (0, [])
  | RotResult.rot a r => (a, r)

/-- Body of the `process_labels` loop for one label (source lines 115-131):
rotate when at least two points are present (otherwise use angle 0 and no
points, line 116), extract the rotated x-coordinates (line 117) and run
`find_nozzles` (line 118).  A `ZeroDivisionError` escaping `find_nozzles`
is `none`. -/
noncomputable def processOne {L : Type} (nozzle_count : ℤ) (tolerance : ℝ)
    (label : L) (pts : List (ℝ × ℝ)) : Option (LabelData L) :=
  match find_nozzles ((rotPairOf pts).2.map Prod.fst) nozzle_count tolerance with
  | none => none
  | some r => some ⟨label, pts, r.nozzle_indices, r.out_of_range,
      degrees (rotPairOf pts).1, r.step, r.start, r.endp, r.details⟩

/-- Iteration of the `process_labels` loop over a list of keys; an
exception in any label aborts the whole run (`none`). -/
noncomputable def processKeys {L : Type} [DecidableEq L]
    (groups : List (L × List (ℝ × ℝ))) (nozzle_count : ℤ) (tolerance : ℝ) :
    List L → Option (List (LabelData L))
  | [] => some []
  | l :: ls =>
    match processOne nozzle_count tolerance l (getGroup l groups),
        processKeys groups nozzle_count tolerance ls with
    | some ld, some rest => some (ld :: rest)
    | _, _ => none

/-- Embedding of `process_labels` (source lines 108-132): the labels are
traversed in sorted order (`for label in sorted(groups)`, line 114). -/
noncomputable def process_labels {L : Type} [LinearOrder L]
    (groups : List (L × List (ℝ × ℝ))) (nozzle_count : ℤ) (tolerance : ℝ) :
    Option (List (LabelData L)) :=
  processKeys groups nozzle_count tolerance
    (List.insertionSort (· ≤ ·) (groups.map Prod.fst))

/-- Combined Index Set (source line 210):
`sorted(\x7bidx for ld in label_data for idx in ld.nozzle_indices\x7d)`,
the sorted deduplicated union of all accepted indices. -/
def combinedOf {L : Type} (results : List (LabelData L)) : List ℤ :=
  List.insertionSort (· ≤ ·) ((results.map LabelData.nozzle_indices).flatten).dedup

section RoundLemmas

variable {α : Type} [LinearOrderedField α] [FloorRing α]

theorem fract_eq_sub_floor (x : α) : Int.fract x = x - ⌊x⌋ := rfl

theorem floor_eq_int (x : α) (n : ℤ) (h1 : (n : α) ≤ x) (h2 : x < (n : α) + 1) :
    ⌊x⌋ = n := by
  rw [Int.floor_eq_iff]
  exact ⟨h1, by linarith⟩

theorem pyRound_eq_floor_of (x : α) (n : ℤ) (h1 : (n : α) ≤ x)
    (h2 : x < (n : α) + 1/2) : pyRound x = n := by
  have hf : ⌊x⌋ = n := floor_eq_int x n h1 (by linarith)
  have hfr : Int.fract x < 1/2 := by
    rw [fract_eq_sub_floor, hf]; linarith
  rw [pyRound, if_pos hfr, hf]

theorem pyRound_eq_ceil_of (x : α) (n : ℤ) (h1 : (n : α) + 1/2 < x)
    (h2 : x < (n : α) + 1) : pyRound x = n + 1 := by
  have hf : ⌊x⌋ = n := floor_eq_int x n (by linarith) h2
  have h3 : ¬ Int.fract x < 1/2 := by
    rw [fract_eq_sub_floor, hf]; push_neg; linarith
  have h4 : 1/2 < Int.fract x := by
    rw [fract_eq_sub_floor, hf]; linarith
  rw [pyRound, if_neg h3, if_pos h4, hf]

theorem pyRound_intCast (k : ℤ) : pyRound ((k : α)) = k := by
  rw [pyRound, Int.fract_intCast, if_pos (by norm_num : (0 : α) < 1/2), Int.floor_intCast]

theorem pyRound_half (n : ℤ) :
    pyRound ((n : α) + 1/2) = if n % 2 = 0 then n else n + 1 := by
  have hf : ⌊(n : α) + 1/2⌋ = n := floor_eq_int _ n (by linarith) (by linarith)
  have hfr : Int.fract ((n : α) + 1/2) = 1/2 := by
    rw [fract_eq_sub_floor, hf]; ring
  rw [pyRound, hfr, if_neg (by norm_num), if_neg (by norm_num), hf]

theorem floor_le_pyRound (x : α) : ⌊x⌋ ≤ pyRound x := by
  rw [pyRound]; split_ifs <;> omega

theorem le_pyRound_of_le (n : ℤ) (x : α) (h : (n : α) ≤ x) : n ≤ pyRound x :=
  le_trans (Int.le_floor.mpr h) (floor_le_pyRound x)

theorem pyRound_le_of_le (n : ℤ) (x : α) (h : x ≤ (n : α)) : pyRound x ≤ n := by
  have hfl : ⌊x⌋ ≤ n := by
    have := Int.floor_le_floor h
    simpa using this
  have hstrict : ¬ Int.fract x < 1/2 → ⌊x⌋ + 1 ≤ n := by
    intro hge
    have h0 : (0 : α) < Int.fract x := lt_of_lt_of_le (by norm_num) (not_lt.mp hge)
    have hx : (⌊x⌋ : α) < x := by
      rw [fract_eq_sub_floor] at h0; linarith
    have : (⌊x⌋ : α) < (n : α) := lt_of_lt_of_le hx h
    have : ⌊x⌋ < n := by exact_mod_cast this
    omega
  rw [pyRound]
  split_ifs with h1 h2 h3
  · exact hfl
  · exact hstrict h1
  · exact hfl
  · exact hstrict h1

theorem abs_pyRound_sub_half (n : ℤ) :
    |((pyRound ((n : α) + 1/2) : ℤ) : α) - ((n : α) + 1/2)| = 1/2 := by
  rw [pyRound_half]
  split_ifs with h
  · rw [abs_sub_comm]
    rw [abs_of_nonneg (by linarith)]
    ring
  · push_cast
    rw [abs_of_nonneg (by linarith)]
    ring

end RoundLemmas

section SortedLemmas

variable {α : Type} [LinearOrderedField α]

theorem getLastD_default_irrel (l : List α) (h : l ≠ []) (d d' : α) :
    l.getLastD d = l.getLastD d' := by
  rw [List.getLastD_eq_getLast?, List.getLastD_eq_getLast?, List.getLast?_eq_getLast l h]
  rfl

theorem getLastD_mem (l : List α) (h : l ≠ []) (d : α) : l.getLastD d ∈ l := by
  rw [List.getLastD_eq_getLast?, List.getLast?_eq_getLast l h]
  exact List.getLast_mem h

theorem headD_mem (l : List α) (h : l ≠ []) (d : α) : l.headD d ∈ l := by
  cases l with
  | nil => exact absurd rfl h
  | cons a t => simp

theorem le_getLastD_of_sorted (d : α) : ∀ (l : List α), List.Sorted (· ≤ ·) l →
    ∀ x ∈ l, x ≤ l.getLastD d
  | [], _, x, hx => by simp at hx
  | [a], _, x, hx => by
    simp at hx
    simp [hx, List.getLastD]
  | a :: b :: t, hs, x, hx => by
    have hs' := List.sorted_cons.mp hs
    rw [List.getLastD_cons]
    rcases List.mem_cons.mp hx with h | h
    · rw [h]
      calc a ≤ b := hs'.1 b (by simp)
        _ ≤ (b :: t).getLastD b := le_getLastD_of_sorted b (b :: t) hs'.2 b (by simp)
        _ = (b :: t).getLastD a := getLastD_default_irrel _ (by simp) b _
    · exact (le_getLastD_of_sorted b (b :: t) hs'.2 x h).trans
        (le_of_eq (getLastD_default_irrel _ (by simp) b _))

theorem headD_le_of_sorted (d : α) (l : List α) (hs : List.Sorted (· ≤ ·) l)
    (x : α) (hx : x ∈ l) : l.headD d ≤ x := by
  cases l with
  | nil => simp at hx
  | cons a t =>
    rcases List.mem_cons.mp hx with h | h
    · simp [h]
    · exact (List.sorted_cons.mp hs).1 x h

end SortedLemmas

section MatcherLemmas

variable {α : Type} [LinearOrderedField α] [FloorRing α]

theorem matchLoop_eq (start step T : α) (h : step ≠ 0) : ∀ mid : List α,
    matchLoop start step T mid = some
      ((mid.filter fun x => acceptB start step T x).map
          (fun x => pyRound (posOf start step x)),
       (mid.filter fun x => ! acceptB start step T x).map
          (fun x => (x, posOf start step x)),
       mid.map fun x =>
          (x, posOf start step x, pyRound (posOf start step x), acceptB start step T x))
  | [] => by simp [matchLoop]
  | x :: rest => by
    rw [matchLoop, if_neg h, matchLoop_eq start step T h rest]
    by_cases hb : acceptB start step T x <;>
      simp [List.filter_cons, hb]

theorem matchLoop_zero (start T : α) (x : α) (rest : List α) :
    matchLoop start 0 T (x :: rest) = none := by
  rw [matchLoop, if_pos rfl]

theorem find_nozzles_guard (xs : List α) (N : ℤ) (T : α)
    (h : xs.length < 2 ∨ N < 2) :
    find_nozzles xs N T = some ⟨[], [], 0, 0, 0, []⟩ := by
  rw [find_nozzles, if_pos h]

theorem find_nozzles_eq (xs : List α) (N : ℤ) (T : α)
    (hlen : 2 ≤ xs.length) (hN : 2 ≤ N) (hstep : stepOf xs N ≠ 0) :
    find_nozzles xs N T = some
      ⟨((midOf xs).filter fun x => acceptB (startOf xs) (stepOf xs N) T x).map
          (fun x => pyRound (posOf (startOf xs) (stepOf xs N) x)),
        ((midOf xs).filter fun x => ! acceptB (startOf xs) (stepOf xs N) T x).map
          (fun x => (x, posOf (startOf xs) (stepOf xs N) x)),
        startOf xs, endOf xs, stepOf xs N,
        (midOf xs).map fun x =>
          (x, posOf (startOf xs) (stepOf xs N) x,
            pyRound (posOf (startOf xs) (stepOf xs N) x),
            acceptB (startOf xs) (stepOf xs N) T x)⟩ := by
  rw [find_nozzles, if_neg (by omega), if_neg (by omega),
    matchLoop_eq _ _ _ hstep]

theorem find_nozzles_degenerate (xs : List α) (N : ℤ) (T : α)
    (hlen : 2 ≤ xs.length) (hN : 2 ≤ N) (hmid : midOf xs = []) :
    find_nozzles xs N T = some
      ⟨[], [], startOf xs, endOf xs, stepOf xs N, []⟩ := by
  rw [find_nozzles, if_neg (by omega), if_neg (by omega), hmid, matchLoop]

theorem find_nozzles_none (xs : List α) (N : ℤ) (T : α)
    (hlen : 2 ≤ xs.length) (hN : 2 ≤ N) (hstep : stepOf xs N = 0)
    (hmid : midOf xs ≠ []) : find_nozzles xs N T = none := by
  rw [find_nozzles, if_neg (by omega), if_neg (by omega)]
  cases hm : midOf xs with
  | nil => exact absurd hm hmid
  | cons x rest => rw [hstep, matchLoop_zero]

end MatcherLemmas

section BoundLemmas

variable {α : Type} [LinearOrderedField α] [FloorRing α]

theorem midOf_sublist (xs : List α) :
    List.Sublist (midOf xs) (List.insertionSort (· ≤ ·) xs) :=
  (List.dropLast_sublist _).trans (List.drop_sublist 1 _)

theorem mem_midOf_bounds (xs : List α) (x : α) (hx : x ∈ midOf xs) :
    startOf xs ≤ x ∧ x ≤ endOf xs := by
  have hmem : x ∈ List.insertionSort (· ≤ ·) xs := (midOf_sublist xs).subset hx
  have hs : List.Sorted (· ≤ ·) (List.insertionSort (· ≤ ·) xs) :=
    List.sorted_insertionSort _ xs
  exact ⟨headD_le_of_sorted 0 _ hs x hmem, le_getLastD_of_sorted 0 _ hs x hmem⟩

theorem insertionSort_ne_nil (xs : List α) (h : xs ≠ []) :
    List.insertionSort (· ≤ ·) xs ≠ [] := by
  intro hc
  have := (List.perm_insertionSort (· ≤ ·) xs).length_eq
  rw [hc] at this
  exact h (List.length_eq_zero.mp this.symm)

theorem startOf_le_endOf (xs : List α) (h : xs ≠ []) : startOf xs ≤ endOf xs := by
  have hne := insertionSort_ne_nil xs h
  have hs : List.Sorted (· ≤ ·) (List.insertionSort (· ≤ ·) xs) :=
    List.sorted_insertionSort _ xs
  exact headD_le_of_sorted 0 _ hs _ (getLastD_mem _ hne 0)

theorem midOf_length (xs : List α) : (midOf xs).length = xs.length - 2 := by
  rw [midOf, List.length_dropLast, List.length_drop,
    (List.perm_insertionSort (· ≤ ·) xs).length_eq]
  omega

theorem stepOf_nonneg (xs : List α) (N : ℤ) (hlen : 1 ≤ xs.length) (hN : 2 ≤ N) :
    0 ≤ stepOf xs N := by
  rw [stepOf]
  apply div_nonneg
  · have : startOf xs ≤ endOf xs :=
      startOf_le_endOf xs (by intro hc; rw [hc] at hlen; simp at hlen)
    linarith
  · have h2 : (2 : α) ≤ (N : α) := by exact_mod_cast hN
    linarith

theorem posOf_bounds (xs : List α) (N : ℤ) (x : α) (hlen : 1 ≤ xs.length)
    (hN : 2 ≤ N) (hx : x ∈ midOf xs) (hstep : stepOf xs N ≠ 0) :
    1 ≤ posOf (startOf xs) (stepOf xs N) x ∧
      posOf (startOf xs) (stepOf xs N) x ≤ (N : α) := by
  obtain ⟨hsx, hxe⟩ := mem_midOf_bounds xs x hx
  have hpos : 0 < stepOf xs N :=
    lt_of_le_of_ne (stepOf_nonneg xs N hlen hN) (Ne.symm hstep)
  have hN2 : (2 : α) ≤ (N : α) := by exact_mod_cast hN
  rw [posOf]
  constructor
  · have : 0 ≤ (x - startOf xs) / stepOf xs N :=
      div_nonneg (by linarith) hpos.le
    linarith
  · have hN1 : ((N : α) - 1) ≠ 0 := by
      intro hc
      rw [sub_eq_zero] at hc
      linarith
    have hse : endOf xs - startOf xs = stepOf xs N * ((N : α) - 1) := by
      rw [stepOf, div_mul_cancel₀ _ hN1]
    have hdiv : (x - startOf xs) / stepOf xs N ≤ (N : α) - 1 := by
      rw [div_le_iff₀ hpos]
      calc x - startOf xs ≤ endOf xs - startOf xs := by linarith
        _ = stepOf xs N * ((N : α) - 1) := hse
        _ = ((N : α) - 1) * stepOf xs N := mul_comm _ _
    linarith

theorem find_indices_bound (xs : List α) (N : ℤ) (T : α) (r : FindResult α)
    (hr : find_nozzles xs N T = some r) : ∀ i ∈ r.nozzle_indices, 1 ≤ i ∧ i ≤ N := by
  intro i hi
  by_cases hg : xs.length < 2 ∨ N < 2
  · rw [find_nozzles_guard xs N T hg] at hr
    injection hr with hr
    rw [← hr] at hi
    simp at hi
  · push_neg at hg
    obtain ⟨hlen, hN⟩ := hg
    by_cases hstep : stepOf xs N = 0
    · cases hm : midOf xs with
      | nil =>
        rw [find_nozzles_degenerate xs N T hlen hN hm] at hr
        injection hr with hr
        rw [← hr] at hi
        simp at hi
      | cons y rest =>
        rw [find_nozzles_none xs N T hlen hN hstep (by rw [hm]; simp)] at hr
        cases hr
    · rw [find_nozzles_eq xs N T hlen hN hstep] at hr
      injection hr with hr
      rw [← hr] at hi
      simp only [List.mem_map, List.mem_filter] at hi
      obtain ⟨x, ⟨hxm, -⟩, hxe⟩ := hi
      obtain ⟨h1, h2⟩ := posOf_bounds xs N x (by omega) hN hxm hstep
      rw [← hxe]
      constructor
      · exact le_pyRound_of_le 1 _ (by exact_mod_cast h1)
      · exact pyRound_le_of_le N _ h2

end BoundLemmas

section ThreeElement

variable {α : Type} [LinearOrderedField α] [FloorRing α]

theorem sorted_three (a b c : α) (hab : a ≤ b) (hbc : b ≤ c) :
    List.Sorted (· ≤ ·) [a, b, c] := by
  rw [List.sorted_cons, List.sorted_cons, List.sorted_cons]
  refine ⟨fun y hy => ?_, fun y hy => ?_, by simp, List.sorted_nil⟩
  · rcases List.mem_cons.mp hy with h | h
    · rw [h]; exact hab
    · simp at h; rw [h]; exact hab.trans hbc
  · simp at hy; rw [hy]; exact hbc

theorem sort_three (a b c : α) (hab : a ≤ b) (hbc : b ≤ c) :
    List.insertionSort (· ≤ ·) [a, b, c] = [a, b, c] :=
  (sorted_three a b c hab hbc).insertionSort_eq

theorem startOf_three (a b c : α) (hab : a ≤ b) (hbc : b ≤ c) :
    startOf [a, b, c] = a := by
  rw [startOf, sort_three a b c hab hbc]
  rfl

theorem endOf_three (a b c : α) (hab : a ≤ b) (hbc : b ≤ c) :
    endOf [a, b, c] = c := by
  rw [endOf, sort_three a b c hab hbc]
  rfl

theorem midOf_three (a b c : α) (hab : a ≤ b) (hbc : b ≤ c) :
    midOf [a, b, c] = [b] := by
  rw [midOf, sort_three a b c hab hbc]
  rfl

theorem stepOf_three (a b c : α) (N : ℤ) (hab : a ≤ b) (hbc : b ≤ c) :
    stepOf [a, b, c] N = (c - a) / ((N : α) - 1) := by
  rw [stepOf, startOf_three a b c hab hbc, endOf_three a b c hab hbc]

theorem find_nozzles_three (a b c : α) (N : ℤ) (T : α) (hab : a ≤ b) (hbc : b ≤ c)
    (hN : 2 ≤ N) (hstep : stepOf [a, b, c] N ≠ 0) :
    find_nozzles [a, b, c] N T = some
      ⟨if acceptB a (stepOf [a, b, c] N) T b
          then [pyRound (posOf a (stepOf [a, b, c] N) b)] else [],
        if acceptB a (stepOf [a, b, c] N) T b
          then [] else [(b, posOf a (stepOf [a, b, c] N) b)],
        a, c, stepOf [a, b, c] N,
        [(b, posOf a (stepOf [a, b, c] N) b, pyRound (posOf a (stepOf [a, b, c] N) b),
          acceptB a (stepOf [a, b, c] N) T b)]⟩ := by
  rw [find_nozzles_eq _ _ _ (by simp) hN hstep, midOf_three a b c hab hbc,
    startOf_three a b c hab hbc, endOf_three a b c hab hbc]
  by_cases hb : acceptB a (stepOf [a, b, c] N) T b <;> simp [hb]

end ThreeElement

section ConcreteEval

theorem find_eval_502 : find_nozzles ([0, 50.2, 100] : List ℚ) 3 (1/4) =
    some ⟨[2], [], 0, 100, 50, [(50.2, 2.004, 2, true)]⟩ := by
  have hstep : stepOf ([0, 50.2, 100] : List ℚ) 3 = 50 := by
    rw [stepOf_three _ _ _ _ (by norm_num) (by norm_num)]
    norm_num
  have hpos : posOf (0 : ℚ) 50 50.2 = 2.004 := by
    rw [posOf]; norm_num
  have hround : pyRound (2.004 : ℚ) = 2 := pyRound_eq_floor_of _ 2 (by norm_num) (by norm_num)
  have haccept : acceptB (0 : ℚ) 50 (1/4) 50.2 = true := by
    rw [acceptB, decide_eq_true_eq, hpos, hround, abs_sub_lt_iff]
    constructor <;> norm_num
  rw [find_nozzles_three 0 50.2 100 3 (1/4) (by norm_num) (by norm_num) (by norm_num)
      (by rw [hstep]; norm_num), hstep, haccept, hpos, hround]
  simp

theorem find_eval_c1cex : find_nozzles ([0, 10, 30] : List ℚ) 4 (1/4) =
    some ⟨[2], [], 0, 30, 10, [(10, 2, 2, true)]⟩ := by
  have hstep : stepOf ([0, 10, 30] : List ℚ) 4 = 10 := by
    rw [stepOf_three _ _ _ _ (by norm_num) (by norm_num)]
    norm_num
  have hpos : posOf (0 : ℚ) 10 10 = 2 := by
    rw [posOf]; norm_num
  have hround : pyRound (2 : ℚ) = 2 := by
    rw [show (2 : ℚ) = ((2 : ℤ) : ℚ) by norm_num, pyRound_intCast]
  have haccept : acceptB (0 : ℚ) 10 (1/4) 10 = true := by
    rw [acceptB, decide_eq_true_eq, hpos, hround, abs_sub_lt_iff]
    constructor <;> norm_num
  rw [find_nozzles_three 0 10 30 4 (1/4) (by norm_num) (by norm_num) (by norm_num)
      (by rw [hstep]; norm_num), hstep, haccept, hpos, hround]
  simp

theorem find_eval_half : find_nozzles ([0, 25, 100] : List ℚ) 3 (1/4) =
    some ⟨[], [(25, 1.5)], 0, 100, 50, [(25, 1.5, 2, false)]⟩ := by
  have hstep : stepOf ([0, 25, 100] : List ℚ) 3 = 50 := by
    rw [stepOf_three _ _ _ _ (by norm_num) (by norm_num)]
    norm_num
  have hpos : posOf (0 : ℚ) 50 25 = 1.5 := by
    rw [posOf]; norm_num
  have h15 : (1.5 : ℚ) = ((1 : ℤ) : ℚ) + 1/2 := by norm_num
  have hround : pyRound (1.5 : ℚ) = 2 := by
    rw [h15, pyRound_half]
    norm_num
  have haccept : acceptB (0 : ℚ) 50 (1/4) 25 = false := by
    rw [acceptB, decide_eq_false_iff_not, hpos, hround, not_lt]
    rw [show |((2 : ℤ) : ℚ) - 1.5| = 1/2 by rw [abs_of_nonneg (by norm_num)]; norm_num]
    norm_num
  rw [find_nozzles_three 0 25 100 3 (1/4) (by norm_num) (by norm_num) (by norm_num)
      (by rw [hstep]; norm_num), hstep, haccept, hpos, hround]
  simp

end ConcreteEval

/-- C3: the claim states that `find_nozzles` raises no exception and is total
even when all coordinates are equal (step = 0) with three or more
coordinates.  The code contradicts it: with `xs = [5, 5, 5]` and
`nozzle_count = 2` the step is `0.0` and line 97 divides by it, raising
`ZeroDivisionError` in Python — modelled here by the `none` result. -/
theorem c3_zero_step_raises :
    find_nozzles ([5, 5, 5] : List ℚ) 2 (1/4) = none := by
  apply find_nozzles_none _ _ _ (by norm_num) (by norm_num)
  · rw [stepOf_three 5 5 5 2 le_rfl le_rfl]
    norm_num
  · rw [midOf_three 5 5 5 le_rfl le_rfl]
    simp

/-- C1 (amended): for N ≥ 2, T > 0 and a nondegenerate grid (step ≠ 0), an
interior coordinate placed exactly at `start + k*step` for an integer
`k ∈ [1, N-2]` is accepted by `find_nozzles` with rounded integer index
`k + 1` (not `k`) and in-tolerance flag true: the continuous position
`pos = (x - start)/step + 1` places the extremes `start` and `end` at
positions 1 and N, not 0 and N-1. -/
theorem c1_interior_grid_index {α : Type} [LinearOrderedField α] [FloorRing α]
    (xs : List α) (N : ℤ) (T : α) (k : ℤ) (x : α)
    (hlen : 2 ≤ xs.length) (hN : 2 ≤ N) (hT : 0 < T)
    (hk1 : 1 ≤ k) (hk2 : k ≤ N - 2)
    (hstep : stepOf xs N ≠ 0)
    (hx : x ∈ midOf xs)
    (hxval : x = startOf xs + (k : α) * stepOf xs N) :
    ∃ r, find_nozzles xs N T = some r ∧
      (x, (k : α) + 1, k + 1, true) ∈ r.details ∧
      (k + 1) ∈ r.nozzle_indices := by
  have hpos : posOf (startOf xs) (stepOf xs N) x = (k : α) + 1 := by
    rw [posOf, hxval, add_sub_cancel_left, mul_div_cancel_right₀ _ hstep]
  have hround : pyRound ((k : α) + 1) = k + 1 := by
    rw [show ((k : α) + 1) = ((k + 1 : ℤ) : α) by push_cast; ring, pyRound_intCast]
  have haccept : acceptB (startOf xs) (stepOf xs N) T x = true := by
    rw [acceptB, decide_eq_true_eq, hpos, hround]
    rw [show |((k + 1 : ℤ) : α) - ((k : α) + 1)| = 0 by
      rw [abs_eq_zero]; push_cast; ring]
    exact hT
  refine ⟨_, find_nozzles_eq xs N T hlen hN hstep, ?_, ?_⟩
  · simp only [List.mem_map]
    exact ⟨x, hx, by rw [hpos, hround, haccept]⟩
  · simp only [List.mem_map]
    exact ⟨x, List.mem_filter.mpr ⟨hx, haccept⟩, by rw [hpos, hround]⟩

/-- C1 witness: the theorem applied to `xs = [0, 10, 30]`, `N = 4`,
`T = 1/4`, `k = 1`, `x = 10 = start + 1*step`. -/
theorem c1_witness :
    2 ≤ ([0, 10, 30] : List ℚ).length ∧ (0 : ℚ) < 1/4 ∧
    (∃ r, find_nozzles ([0, 10, 30] : List ℚ) 4 (1/4) = some r ∧
      ((10 : ℚ), ((1 : ℤ) : ℚ) + 1, (1 : ℤ) + 1, true) ∈ r.details ∧
      ((1 : ℤ) + 1) ∈ r.nozzle_indices) := by
  have hstep : stepOf ([0, 10, 30] : List ℚ) 4 = 10 := by
    rw [stepOf_three _ _ _ _ (by norm_num) (by norm_num)]
    norm_num
  refine ⟨by norm_num, by norm_num, ?_⟩
  apply c1_interior_grid_index ([0, 10, 30] : List ℚ) 4 (1/4) 1 10
    (by norm_num) (by norm_num) (by norm_num) le_rfl (by norm_num)
    (by rw [hstep]; norm_num)
    (by rw [midOf_three 0 10 30 (by norm_num) (by norm_num)]; simp)
  rw [startOf_three 0 10 30 (by norm_num) (by norm_num), hstep]
  norm_num

/-- C1 counterexample: at `xs = [0, 10, 30]`, `N = 4`, `T = 1/4` the
interior coordinate `10 = start + 1*step` (so `k = 1 ∈ [1, N-2]`) gets
rounded index 2 and the accepted index list is `[2]`: index `k = 1` is
not produced, refuting rounded index `== k` and extremes at 0 and N-1. -/
theorem c1_counterexample :
    find_nozzles ([0, 10, 30] : List ℚ) 4 (1/4) =
      some ⟨[2], [], 0, 30, 10, [(10, 2, 2, true)]⟩ ∧
    (10 : ℚ) = 0 + 1 * ((30 - 0) / ((4 : ℚ) - 1)) ∧
    (1 : ℤ) ∉ ([2] : List ℤ) := by
  refine ⟨find_eval_c1cex, by norm_num, by decide⟩

/-- C5 (amended): with at least 2 coordinates and `nozzle_count == 1`,
`find_nozzles` does not return the start/end bounds: the `nozzle_count < 2`
guard of line 82 fires first, so the result is the all-empty record with
zero start, end and step (the `nozzle_count == 1` branch of line 89 is
unreachable). -/
theorem c5_n1_returns_guard_result {α : Type} [LinearOrderedField α] [FloorRing α]
    (xs : List α) (T : α) (hlen : 2 ≤ xs.length) :
    find_nozzles xs 1 T = some ⟨[], [], 0, 0, 0, []⟩ :=
  find_nozzles_guard xs 1 T (Or.inr (by norm_num))

/-- C5 witness: the amended theorem applied to `xs = [1, 2, 3]`. -/
theorem c5_witness :
    2 ≤ ([1, 2, 3] : List ℚ).length ∧
    find_nozzles ([1, 2, 3] : List ℚ) 1 (1/4) = some ⟨[], [], 0, 0, 0, []⟩ :=
  ⟨by norm_num, c5_n1_returns_guard_result ([1, 2, 3] : List ℚ) (1/4) (by norm_num)⟩

/-- C5 counterexample: on `xs = [1, 2, 3]` with `nozzle_count = 1` the
returned start and end are 0 and 0, not the minimum 1 and maximum 3 of the
coordinates, refuting the claim that the bounds are returned. -/
theorem c5_counterexample :
    find_nozzles ([1, 2, 3] : List ℚ) 1 (1/4) = some ⟨[], [], 0, 0, 0, []⟩ ∧
    (0 : ℚ) ≠ 1 ∧ (0 : ℚ) ≠ 3 :=
  ⟨find_nozzles_guard _ _ _ (Or.inr (by norm_num)), by norm_num, by norm_num⟩

/-- C10: for every run of `find_nozzles` with at least 2 coordinates and
N ≥ 2 that returns (rather than raising), exactly one Match Detail is
recorded per interior coordinate — `len(details) = len(xs) - 2` — and the
accepted-index and out-of-range lists partition the details:
`len(indices) + len(out_of_range) = len(details)`. -/
theorem c10_detail_partition {α : Type} [LinearOrderedField α] [FloorRing α]
    (xs : List α) (N : ℤ) (T : α) (r : FindResult α)
    (hlen : 2 ≤ xs.length) (hN : 2 ≤ N)
    (hr : find_nozzles xs N T = some r) :
    r.details.length = xs.length - 2 ∧
    r.nozzle_indices.length + r.out_of_range.length = r.details.length := by
  by_cases hstep : stepOf xs N = 0
  · cases hm : midOf xs with
    | nil =>
      rw [find_nozzles_degenerate xs N T hlen hN hm] at hr
      injection hr with hr
      rw [← hr]
      have hml := midOf_length xs
      rw [hm] at hml
      simp only [List.length_nil] at hml
      simp [← hml]
    | cons y rest =>
      rw [find_nozzles_none xs N T hlen hN hstep (by rw [hm]; simp)] at hr
      cases hr
  · rw [find_nozzles_eq xs N T hlen hN hstep] at hr
    injection hr with hr
    rw [← hr]
    simp only [List.length_map]
    refine ⟨midOf_length xs, ?_⟩
    exact (List.length_eq_length_filter_add
      (fun x => acceptB (startOf xs) (stepOf xs N) T x)).symm

/-- C10 witness: the theorem applied to `xs = [0, 50.2, 100]`, `N = 3`,
`T = 1/4`. -/
theorem c10_witness :
    2 ≤ ([0, 50.2, 100] : List ℚ).length ∧
    ((⟨[2], [], 0, 100, 50, [(50.2, 2.004, 2, true)]⟩ : FindResult ℚ).details.length
        = ([0, 50.2, 100] : List ℚ).length - 2 ∧
      (⟨[2], [], 0, 100, 50, [(50.2, 2.004, 2, true)]⟩ : FindResult ℚ).nozzle_indices.length
          + (⟨[2], [], 0, 100, 50, [(50.2, 2.004, 2, true)]⟩ : FindResult ℚ).out_of_range.length
        = (⟨[2], [], 0, 100, 50, [(50.2, 2.004, 2, true)]⟩ : FindResult ℚ).details.length) :=
  ⟨by norm_num,
    c10_detail_partition ([0, 50.2, 100] : List ℚ) 3 (1/4) _ (by norm_num) (by norm_num)
      find_eval_502⟩

/-- C9: a continuous position whose fractional part is exactly 1/2 is
rounded half-to-even by `find_nozzles` (the rounded index recorded in the
Match Detail is even), the in-tolerance flag holds exactly when `1/2 < T`
(the distance to the rounded index is exactly 1/2 and acceptance is
strict), so for every tolerance `T ≤ 1/2` the point is recorded
out-of-range, and for `T > 1/2` it is accepted. -/
theorem c9_half_round_even {α : Type} [LinearOrderedField α] [FloorRing α]
    (xs : List α) (N : ℤ) (T : α) (r : FindResult α)
    (hr : find_nozzles xs N T = some r)
    (x pos : α) (i : ℤ) (b : Bool)
    (hd : (x, pos, i, b) ∈ r.details) (hfr : Int.fract pos = 1/2) :
    i % 2 = 0 ∧ (b = true ↔ 1/2 < T) ∧
    (T ≤ 1/2 → (x, pos) ∈ r.out_of_range) ∧
    (1/2 < T → i ∈ r.nozzle_indices) := by
  by_cases hg : xs.length < 2 ∨ N < 2
  · rw [find_nozzles_guard xs N T hg] at hr
    injection hr with hr
    rw [← hr] at hd
    simp at hd
  · push_neg at hg
    obtain ⟨hlen, hN⟩ := hg
    by_cases hstep : stepOf xs N = 0
    · cases hm : midOf xs with
      | nil =>
        rw [find_nozzles_degenerate xs N T hlen hN hm] at hr
        injection hr with hr
        rw [← hr] at hd
        simp at hd
      | cons y rest =>
        rw [find_nozzles_none xs N T hlen hN hstep (by rw [hm]; simp)] at hr
        cases hr
    · rw [find_nozzles_eq xs N T hlen hN hstep] at hr
      injection hr with hr
      rw [← hr] at hd ⊢
      simp only [List.mem_map] at hd
      obtain ⟨y, hy, hye⟩ := hd
      have hcomp : y = x ∧ posOf (startOf xs) (stepOf xs N) y = pos ∧
          pyRound (posOf (startOf xs) (stepOf xs N) y) = i ∧
          acceptB (startOf xs) (stepOf xs N) T y = b := by
        simpa [Prod.ext_iff] using hye
      obtain ⟨hyx, hpos, hrnd, hacc⟩ := hcomp
      subst hyx
      obtain ⟨n, hn⟩ : ∃ n : ℤ, pos = (n : α) + 1/2 :=
        ⟨⌊pos⌋, by rw [fract_eq_sub_floor] at hfr; linarith⟩
      have hiv : i = if n % 2 = 0 then n else n + 1 := by
        rw [← hrnd, hpos, hn, pyRound_half]
      have hb_iff : b = true ↔ (1/2 : α) < T := by
        rw [← hacc, acceptB, decide_eq_true_eq, hpos, hn, abs_pyRound_sub_half]
      refine ⟨?_, hb_iff, ?_, ?_⟩
      · rw [hiv]
        split_ifs with he
        · exact he
        · omega
      · intro hT
        have hbf : b = false := by
          cases b with
          | false => rfl
          | true => exact absurd (hb_iff.mp rfl) (not_lt.mpr hT)
        simp only [List.mem_map]
        refine ⟨y, List.mem_filter.mpr ⟨hy, ?_⟩, by rw [hpos]⟩
        rw [hacc, hbf]
        rfl
      · intro hT
        have hbt : b = true := hb_iff.mpr hT
        simp only [List.mem_map]
        refine ⟨y, List.mem_filter.mpr ⟨hy, ?_⟩, hrnd⟩
        rw [hacc, hbt]

/-- C9 witness: the theorem applied to `xs = [0, 25, 100]`, `N = 3`,
`T = 1/4`, where the interior coordinate 25 has continuous position 1.5. -/
theorem c9_witness :
    Int.fract (1.5 : ℚ) = 1/2 ∧
    ((2 : ℤ) % 2 = 0 ∧ (false = true ↔ (1/2 : ℚ) < 1/4) ∧
      ((1/4 : ℚ) ≤ 1/2 → ((25 : ℚ), (1.5 : ℚ)) ∈ [((25 : ℚ), (1.5 : ℚ))]) ∧
      ((1/2 : ℚ) < 1/4 → (2 : ℤ) ∈ ([] : List ℤ))) := by
  have hfr : Int.fract (1.5 : ℚ) = 1/2 := by
    rw [fract_eq_sub_floor, floor_eq_int (1.5 : ℚ) 1 (by norm_num) (by norm_num)]
    norm_num
  exact ⟨hfr,
    c9_half_round_even ([0, 25, 100] : List ℚ) 3 (1/4) _ find_eval_half
      25 1.5 2 false (by simp) hfr⟩

section RotationLemmas

theorem atan2_key (y x : ℝ) : x * Real.sin (atan2 y x) = y * Real.cos (atan2 y x) := by
  rw [atan2]
  split_ifs with h1 h2 h3 h4 h5
  · have hx : x ≠ 0 := ne_of_gt h1
    have hs : (0 : ℝ) < Real.sqrt (1 + (y / x) ^ 2) :=
      Real.sqrt_pos.mpr (by positivity)
    rw [Real.sin_arctan, Real.cos_arctan]
    field_simp
    ring
  · obtain ⟨hx, -⟩ := h2
    have hx0 : x ≠ 0 := ne_of_lt hx
    have hs : (0 : ℝ) < Real.sqrt (1 + (y / x) ^ 2) :=
      Real.sqrt_pos.mpr (by positivity)
    rw [Real.sin_add_pi, Real.cos_add_pi, Real.sin_arctan, Real.cos_arctan]
    field_simp
    ring
  · obtain ⟨hx, -⟩ := h3
    have hx0 : x ≠ 0 := ne_of_lt hx
    have hs : (0 : ℝ) < Real.sqrt (1 + (y / x) ^ 2) :=
      Real.sqrt_pos.mpr (by positivity)
    rw [Real.sin_sub_pi, Real.cos_sub_pi, Real.sin_arctan, Real.cos_arctan]
    field_simp
    ring
  · obtain ⟨hx, -⟩ := h4
    rw [Real.sin_pi_div_two, Real.cos_pi_div_two, hx]
    ring
  · obtain ⟨hx, -⟩ := h5
    rw [Real.sin_neg, Real.cos_neg, Real.sin_pi_div_two, Real.cos_pi_div_two, hx]
    ring
  · have hx : x = 0 := by
      rcases lt_trichotomy x 0 with h | h | h
      · rcases le_or_lt 0 y with hy | hy
        · exact absurd ⟨h, hy⟩ h2
        · exact absurd ⟨h, hy⟩ h3
      · exact h
      · exact absurd h h1
    have hy : y = 0 := by
      rcases lt_trichotomy y 0 with h | h | h
      · exact absurd ⟨hx, h⟩ h5
      · exact h
      · exact absurd ⟨hx, h⟩ h4
    rw [hx, hy, Real.sin_zero, Real.cos_zero]
    ring

theorem headD_map {β γ : Type} (f : β → γ) (l : List β) (hne : l ≠ []) (d : β) (d2 : γ) :
    (l.map f).headD d2 = f (l.headD d) := by
  cases l with
  | nil => exact absurd rfl hne
  | cons a t => rfl

theorem getLastD_map {β γ : Type} (f : β → γ) : ∀ (l : List β), l ≠ [] → ∀ (d : β) (d2 : γ),
    (l.map f).getLastD d2 = f (l.getLastD d)
  | [], h, _, _ => absurd rfl h
  | [_], _, _, _ => rfl
  | a :: b :: t, _, d, d2 => by
    rw [List.map_cons, List.getLastD_cons, List.getLastD_cons]
    exact getLastD_map f (b :: t) (by simp) a (f a)

theorem sortPoints_ne_nil (points : List (ℝ × ℝ)) (h : points ≠ []) :
    List.insertionSort (fun p q : ℝ × ℝ => p.1 ≤ q.1) points ≠ [] := by
  intro hc
  have := (List.perm_insertionSort (fun p q : ℝ × ℝ => p.1 ≤ q.1) points).length_eq
  rw [hc] at this
  exact h (List.length_eq_zero.mp this.symm)

end RotationLemmas

/-- C6 (amended): when `rotate_to_vertical` is given fewer than 2 points it
returns the bare empty list with no angle attached (line 59) — a different
shape from the `(angle, rotated)` pair of the normal case — and raises no
error; the caller `process_labels` supplies `(0.0, [])` itself for such
labels (line 116). -/
theorem c6_short_input_bare (points : List (ℝ × ℝ)) (h : points.length < 2) :
    rotate_to_vertical points = RotResult.noPoints := by
  rw [rotate_to_vertical, if_pos h]

/-- C6 witness: the amended theorem applied to the empty list. -/
theorem c6_witness : (([] : List (ℝ × ℝ)).length < 2) ∧
    rotate_to_vertical [] = RotResult.noPoints :=
  ⟨by norm_num, c6_short_input_bare [] (by norm_num)⟩

/-- C6 counterexample: on an input with fewer than 2 points the result of
`rotate_to_vertical` is the bare empty list, not a pair of an angle 0 and
an empty rotated sequence, so the degenerate result does not have the
same shape as the normal case. -/
theorem c6_counterexample :
    rotate_to_vertical ([] : List (ℝ × ℝ)) ≠ RotResult.rot 0 [] := by
  rw [rotate_to_vertical, if_pos (by norm_num : ([] : List (ℝ × ℝ)).length < 2)]
  intro h
  exact RotResult.noConfusion h

/-- C8: for every label group with at least 2 points, rotating by the
negative of `atan2(dy, dx)` — the displacement angle of the two extreme
points of the x-sorted sequence — makes the rotated y-components of those
two extreme points equal in exact real arithmetic. -/
theorem c8_rotation_levels (points : List (ℝ × ℝ)) (h : 2 ≤ points.length) :
    ((rotatedOf points).headD (0, 0)).2 = ((rotatedOf points).getLastD (0, 0)).2 := by
  have hnot : ¬ points.length < 2 := not_lt.mpr h
  have hne0 : points ≠ [] := by
    intro hc
    rw [hc] at h
    simp at h
  have hne := sortPoints_ne_nil points hne0
  rw [rotatedOf, rotate_to_vertical, if_neg hnot]
  simp only []
  rw [headD_map _ _ hne (0, 0) (0, 0), getLastD_map _ _ hne (0, 0) (0, 0)]
  simp only []
  rw [Real.sin_neg, Real.cos_neg]
  set pts := List.insertionSort (fun p q : ℝ × ℝ => p.1 ≤ q.1) points with hpts
  set p1 := pts.headD (0, 0) with hp1
  set p2 := pts.getLastD (0, 0) with hp2
  have key := atan2_key (p2.2 - p1.2) (p2.1 - p1.1)
  linear_combination key

/-- C8 witness: the theorem applied to the two points (0,0) and (1,1). -/
theorem c8_witness :
    2 ≤ ([((0 : ℝ), (0 : ℝ)), (1, 1)] : List (ℝ × ℝ)).length ∧
    ((rotatedOf [((0 : ℝ), (0 : ℝ)), (1, 1)]).headD (0, 0)).2 =
      ((rotatedOf [((0 : ℝ), (0 : ℝ)), (1, 1)]).getLastD (0, 0)).2 :=
  ⟨by norm_num, c8_rotation_levels [((0 : ℝ), (0 : ℝ)), (1, 1)] (by norm_num)⟩

section ProcessLemmas

theorem processOne_inv {L : Type} (N : ℤ) (T : ℝ) (label : L) (pts : List (ℝ × ℝ))
    (ld : LabelData L) (h : processOne N T label pts = some ld) :
    ∃ r, find_nozzles ((rotPairOf pts).2.map Prod.fst) N T = some r ∧
      ld.nozzle_indices = r.nozzle_indices := by
  rw [processOne] at h
  cases hf : find_nozzles ((rotPairOf pts).2.map Prod.fst) N T with
  | none =>
    rw [hf] at h
    cases h
  | some r =>
    rw [hf] at h
    injection h with h
    exact ⟨r, rfl, by rw [← h]⟩

theorem processKeys_inv {L : Type} [DecidableEq L]
    (g : List (L × List (ℝ × ℝ))) (N : ℤ) (T : ℝ) :
    ∀ (ks : List L) (rs : List (LabelData L)),
    processKeys g N T ks = some rs →
    ∀ ld ∈ rs, ∃ l, processOne N T l (getGroup l g) = some ld
  | [], rs, h => by
    rw [processKeys] at h
    injection h with h
    intro ld hld
    rw [← h] at hld
    simp at hld
  | k :: ks, rs, h => by
    rw [processKeys] at h
    cases h1 : processOne N T k (getGroup k g) with
    | none =>
      rw [h1] at h
      cases h
    | some ld0 =>
      rw [h1] at h
      cases h2 : processKeys g N T ks with
      | none =>
        rw [h2] at h
        cases h
      | some rest =>
        rw [h2] at h
        injection h with h
        intro ld hld
        rw [← h] at hld
        rcases List.mem_cons.mp hld with he | he
        · exact ⟨k, by rw [h1, he]⟩
        · exact processKeys_inv g N T ks rest h2 ld he

theorem combinedOf_sorted {L : Type} (rs : List (LabelData L)) :
    List.Sorted (· ≤ ·) (combinedOf rs) :=
  List.sorted_insertionSort _ _

theorem combinedOf_nodup {L : Type} (rs : List (LabelData L)) :
    (combinedOf rs).Nodup :=
  (List.perm_insertionSort _ _).nodup_iff.mpr (List.nodup_dedup _)

theorem combinedOf_mem {L : Type} (rs : List (LabelData L)) (i : ℤ) :
    i ∈ combinedOf rs ↔ ∃ ld ∈ rs, i ∈ ld.nozzle_indices := by
  rw [combinedOf, (List.perm_insertionSort _ _).mem_iff, List.mem_dedup, List.mem_flatten]
  constructor
  · rintro ⟨s, hs, his⟩
    rcases List.mem_map.mp hs with ⟨ld, hld, rfl⟩
    exact ⟨ld, hld, his⟩
  · rintro ⟨ld, hld, hi⟩
    exact ⟨ld.nozzle_indices, List.mem_map.mpr ⟨ld, hld, rfl⟩, hi⟩

theorem getGroup_perm {L : Type} [DecidableEq L] :
    ∀ {g1 g2 : List (L × List (ℝ × ℝ))}, List.Perm g1 g2 →
    (g1.map Prod.fst).Nodup → ∀ a, getGroup a g1 = getGroup a g2 := by
  intro g1 g2 hperm
  induction hperm with
  | nil =>
    intro _ a
    rfl
  | cons p h ih =>
    intro hnd a
    obtain ⟨k, v⟩ := p
    rw [getGroup, getGroup]
    by_cases hak : a = k
    · rw [if_pos hak, if_pos hak]
    · rw [if_neg hak, if_neg hak]
      rw [List.map_cons] at hnd
      exact ih (List.nodup_cons.mp hnd).2 a
  | swap p q l =>
    intro hnd a
    obtain ⟨k1, v1⟩ := p
    obtain ⟨k2, v2⟩ := q
    rw [List.map_cons, List.map_cons, List.nodup_cons] at hnd
    have hkk : k2 ≠ k1 := by
      intro hc
      exact hnd.1 (by rw [hc]; simp)
    rw [getGroup, getGroup, getGroup, getGroup]
    by_cases h2 : a = k2
    · rw [if_pos h2, if_neg (by rw [h2]; exact hkk), if_pos h2]
    · rw [if_neg h2]
      by_cases h1 : a = k1
      · rw [if_pos h1, if_pos h1]
      · rw [if_neg h1, if_neg h1, if_neg h2]
  | trans h1 h2 ih1 ih2 =>
    intro hnd a
    rw [ih1 hnd a, ih2 ((h1.map Prod.fst).nodup_iff.mp hnd) a]

theorem processKeys_congr {L : Type} [DecidableEq L]
    (g1 g2 : List (L × List (ℝ × ℝ))) (N : ℤ) (T : ℝ)
    (hg : ∀ a, getGroup a g1 = getGroup a g2) :
    ∀ ks : List L, processKeys g1 N T ks = processKeys g2 N T ks
  | [] => rfl
  | k :: ks => by
    rw [processKeys, processKeys, hg k, processKeys_congr g1 g2 N T hg ks]

theorem sortedKeys_perm {L : Type} [LinearOrder L]
    {g1 g2 : List (L × List (ℝ × ℝ))} (hperm : List.Perm g1 g2) :
    List.insertionSort (· ≤ ·) (g1.map Prod.fst) =
      List.insertionSort (· ≤ ·) (g2.map Prod.fst) :=
  List.eq_of_perm_of_sorted
    ((List.perm_insertionSort _ _).trans
      ((hperm.map _).trans (List.perm_insertionSort _ _).symm))
    (List.sorted_insertionSort _ _) (List.sorted_insertionSort _ _)

theorem process_labels_perm {L : Type} [LinearOrder L]
    {g1 g2 : List (L × List (ℝ × ℝ))} (N : ℤ) (T : ℝ)
    (hperm : List.Perm g1 g2) (hnd : (g1.map Prod.fst).Nodup) :
    process_labels g1 N T = process_labels g2 N T := by
  rw [process_labels, process_labels, sortedKeys_perm hperm,
    processKeys_congr g1 g2 N T (getGroup_perm hperm hnd)]

end ProcessLemmas

/-- C7: the Combined Index Set is the sorted deduplicated union of all
accepted indices: it is sorted ascending, contains no duplicates, every
element appears in some Label Result's accepted index list, and permuting
the iteration order of the input mapping (with its unique keys) changes
neither the Label Result sequence nor the Combined Index Set. -/
theorem c7_combined_set {L : Type} [LinearOrder L]
    (g1 g2 : List (L × List (ℝ × ℝ))) (N : ℤ) (T : ℝ)
    (hperm : List.Perm g1 g2) (hnd : (g1.map Prod.fst).Nodup) :
    process_labels g1 N T = process_labels g2 N T ∧
    ∀ rs, process_labels g1 N T = some rs →
      List.Sorted (· ≤ ·) (combinedOf rs) ∧ (combinedOf rs).Nodup ∧
      ∀ i ∈ combinedOf rs, ∃ ld ∈ rs, i ∈ ld.nozzle_indices :=
  ⟨process_labels_perm N T hperm hnd, fun rs _ =>
    ⟨combinedOf_sorted rs, combinedOf_nodup rs,
      fun i hi => (combinedOf_mem rs i).mp hi⟩⟩

/-- C7 witness: the theorem applied to two singleton-point labels 0 and 1
listed in the two possible orders. -/
theorem c7_witness :
    List.Perm [((0 : ℕ), [((0 : ℝ), (0 : ℝ))]), (1, [])]
      [((1 : ℕ), ([] : List (ℝ × ℝ))), (0, [((0 : ℝ), (0 : ℝ))])] ∧
    (([((0 : ℕ), [((0 : ℝ), (0 : ℝ))]), (1, [])].map Prod.fst).Nodup) ∧
    (process_labels [((0 : ℕ), [((0 : ℝ), (0 : ℝ))]), (1, [])] 3 (1/4) =
        process_labels [((1 : ℕ), ([] : List (ℝ × ℝ))), (0, [((0 : ℝ), (0 : ℝ))])] 3 (1/4) ∧
      ∀ rs, process_labels [((0 : ℕ), [((0 : ℝ), (0 : ℝ))]), (1, [])] 3 (1/4) = some rs →
        List.Sorted (· ≤ ·) (combinedOf rs) ∧ (combinedOf rs).Nodup ∧
        ∀ i ∈ combinedOf rs, ∃ ld ∈ rs, i ∈ ld.nozzle_indices) := by
  refine ⟨List.Perm.swap _ _ _, by simp, ?_⟩
  exact c7_combined_set _ _ 3 (1/4) (List.Perm.swap _ _ _) (by simp)

theorem find_eval_rep : find_nozzles ([0, 100, 100] : List ℚ) 3 (1/4) =
    some ⟨[3], [], 0, 100, 50, [(100, 3, 3, true)]⟩ := by
  have hstep : stepOf ([0, 100, 100] : List ℚ) 3 = 50 := by
    rw [stepOf_three _ _ _ _ (by norm_num) le_rfl]
    norm_num
  have hpos : posOf (0 : ℚ) 50 100 = 3 := by
    rw [posOf]; norm_num
  have hround : pyRound (3 : ℚ) = 3 := by
    rw [show (3 : ℚ) = ((3 : ℤ) : ℚ) by norm_num, pyRound_intCast]
  have haccept : acceptB (0 : ℚ) 50 (1/4) 100 = true := by
    rw [acceptB, decide_eq_true_eq, hpos, hround, abs_sub_lt_iff]
    constructor <;> norm_num
  rw [find_nozzles_three 0 100 100 3 (1/4) (by norm_num) le_rfl (by norm_num)
      (by rw [hstep]; norm_num), hstep, haccept, hpos, hround]
  simp

/-- C4 (amended): every accepted nozzle index appended by `find_nozzles`,
and hence every member of the Combined Index Set, is an integer in the
range 1..N — not 0..N-1 — for every input coordinate sequence (including
sequences with repeated extreme values, where an interior copy of the
maximum yields index N). -/
theorem c4_index_range {α : Type} [LinearOrderedField α] [FloorRing α]
    {L : Type} [LinearOrder L]
    (g : List (L × List (ℝ × ℝ))) (N : ℤ) (T : α) (T2 : ℝ) :
    (∀ (xs : List α) (r : FindResult α), find_nozzles xs N T = some r →
      ∀ i ∈ r.nozzle_indices, 1 ≤ i ∧ i ≤ N) ∧
    (∀ rs, process_labels g N T2 = some rs →
      ∀ i ∈ combinedOf rs, 1 ≤ i ∧ i ≤ N) := by
  constructor
  · intro xs r hr i hi
    exact find_indices_bound xs N T r hr i hi
  · intro rs hrs i hi
    rcases (combinedOf_mem rs i).mp hi with ⟨ld, hld, hild⟩
    rw [process_labels] at hrs
    rcases processKeys_inv g N T2 _ rs hrs ld hld with ⟨l, hl⟩
    rcases processOne_inv N T2 l _ ld hl with ⟨r, hr, hind⟩
    rw [hind] at hild
    exact find_indices_bound _ N T2 r hr i hild

/-- C4 witness: the find_nozzles part of the theorem applied to
`xs = [0, 100, 100]`, `N = 3`, `T = 1/4`, where index 3 is accepted. -/
theorem c4_witness :
    find_nozzles ([0, 100, 100] : List ℚ) 3 (1/4) =
      some ⟨[3], [], 0, 100, 50, [(100, 3, 3, true)]⟩ ∧
    (1 ≤ (3 : ℤ) ∧ (3 : ℤ) ≤ 3) :=
  ⟨find_eval_rep,
    (c4_index_range (α := ℚ) ([] : List (ℕ × List (ℝ × ℝ))) 3 (1/4) (1/4)).1
      [0, 100, 100] _ find_eval_rep 3 (by simp)⟩

/-- C4 counterexample: at `xs = [0, 100, 100]` (repeated maximum), `N = 3`,
`T = 1/4`, the interior copy of the maximum gets continuous position 3 and
accepted index 3, which is outside the claimed range 0..N-1 = 0..2. -/
theorem c4_counterexample :
    find_nozzles ([0, 100, 100] : List ℚ) 3 (1/4) =
      some ⟨[3], [], 0, 100, 50, [(100, 3, 3, true)]⟩ ∧
    (3 : ℤ) ∈ ([3] : List ℤ) ∧ ¬ ((3 : ℤ) ≤ 3 - 1) :=
  ⟨find_eval_rep, by simp, by decide⟩

section PipelineEval

theorem atan2_zero_pos (x : ℝ) (h : 0 < x) : atan2 0 x = 0 := by
  rw [atan2, if_pos h, zero_div, Real.arctan_zero]

theorem degrees_zero : degrees 0 = 0 := by
  rw [degrees, zero_mul, zero_div]

theorem sorted_pts_three (b : ℝ) (h0 : 0 ≤ b) (h1 : b ≤ 100) :
    List.insertionSort (fun p q : ℝ × ℝ => p.1 ≤ q.1)
      [((0 : ℝ), (0 : ℝ)), (b, 0), (100, 0)] = [((0 : ℝ), (0 : ℝ)), (b, 0), (100, 0)] := by
  apply List.Sorted.insertionSort_eq
  rw [List.sorted_cons, List.sorted_cons, List.sorted_cons]
  refine ⟨fun y hy => ?_, fun y hy => ?_, by simp, List.sorted_nil⟩
  · rcases List.mem_cons.mp hy with h | h
    · rw [h]; exact h0
    · simp at h; rw [h]; norm_num
  · simp at hy; rw [hy]; exact h1

theorem rotate_three_horizontal (b : ℝ) (h0 : 0 ≤ b) (h1 : b ≤ 100) :
    rotate_to_vertical [((0 : ℝ), (0 : ℝ)), (b, 0), (100, 0)] =
      RotResult.rot 0 [((0 : ℝ), (0 : ℝ)), (b, 0), (100, 0)] := by
  rw [rotate_to_vertical, if_neg (by norm_num), sorted_pts_three b h0 h1]
  simp only [List.headD_cons, List.getLastD_cons]
  norm_num [List.getLastD, atan2_zero_pos, Real.cos_zero, Real.sin_zero]

theorem rotPairOf_three (b : ℝ) (h0 : 0 ≤ b) (h1 : b ≤ 100) :
    rotPairOf [((0 : ℝ), (0 : ℝ)), (b, 0), (100, 0)] =
      (0, [((0 : ℝ), (0 : ℝ)), (b, 0), (100, 0)]) := by
  rw [rotPairOf, if_pos (by norm_num), rotate_three_horizontal b h0 h1]

theorem process_labels_single {L : Type} [LinearOrder L] (l : L)
    (pts : List (ℝ × ℝ)) (N : ℤ) (T : ℝ) :
    process_labels [(l, pts)] N T =
      match processOne N T l pts with
      | none => none
      | some ld => some [ld] := by
  rw [process_labels]
  show processKeys [(l, pts)] N T [l] = _
  rw [processKeys, getGroup, if_pos rfl, processKeys]
  cases processOne N T l pts <;> rfl

theorem processOne_three {L : Type} (l : L) (b : ℝ) (h0 : 0 ≤ b) (h1 : b ≤ 100) :
    processOne 3 (1/4) l [((0 : ℝ), (0 : ℝ)), (b, 0), (100, 0)] =
      some ⟨l, [((0 : ℝ), (0 : ℝ)), (b, 0), (100, 0)],
        (if acceptB (0 : ℝ) 50 (1/4) b then [pyRound (posOf (0 : ℝ) 50 b)] else []),
        (if acceptB (0 : ℝ) 50 (1/4) b then [] else [(b, posOf (0 : ℝ) 50 b)]),
        degrees 0, 50, 0, 100,
        [(b, posOf (0 : ℝ) 50 b, pyRound (posOf (0 : ℝ) 50 b),
          acceptB (0 : ℝ) 50 (1/4) b)]⟩ := by
  have hrot := rotPairOf_three b h0 h1
  have hxs : (rotPairOf [((0 : ℝ), (0 : ℝ)), (b, 0), (100, 0)]).2.map Prod.fst
      = [0, b, 100] := by
    rw [hrot]
    rfl
  have hstep : stepOf ([0, b, 100] : List ℝ) 3 = 50 := by
    rw [stepOf_three _ _ _ _ h0 h1]
    norm_num
  have hfind := find_nozzles_three (0 : ℝ) b 100 3 (1/4) h0 h1 (by norm_num)
    (by rw [hstep]; norm_num)
  rw [hstep] at hfind
  rw [processOne, hxs, hfind, hrot]

end PipelineEval

section PipelineConcrete

theorem pipeline_502 :
    process_labels [("A", [((0 : ℝ), (0 : ℝ)), (50.2, 0), (100, 0)])] 3 (1/4) =
      some [⟨"A", [((0 : ℝ), (0 : ℝ)), (50.2, 0), (100, 0)], [2], [], 0, 50, 0, 100,
        [(50.2, 2.004, 2, true)]⟩] := by
  have hpos : posOf (0 : ℝ) 50 50.2 = 2.004 := by
    rw [posOf]; norm_num
  have hround : pyRound ((2.004 : ℝ)) = 2 :=
    pyRound_eq_floor_of _ 2 (by norm_num) (by norm_num)
  have haccept : acceptB (0 : ℝ) 50 (1/4) 50.2 = true := by
    rw [acceptB, decide_eq_true_eq, hpos, hround, abs_sub_lt_iff]
    constructor <;> norm_num
  rw [process_labels_single, processOne_three "A" 50.2 (by norm_num) (by norm_num),
    haccept, hpos, hround, degrees_zero]
  simp

theorem pipeline_62 :
    process_labels [("A", [((0 : ℝ), (0 : ℝ)), (62, 0), (100, 0)])] 3 (1/4) =
      some [⟨"A", [((0 : ℝ), (0 : ℝ)), (62, 0), (100, 0)], [2], [], 0, 50, 0, 100,
        [(62, 2.24, 2, true)]⟩] := by
  have hpos : posOf (0 : ℝ) 50 62 = 2.24 := by
    rw [posOf]; norm_num
  have hround : pyRound ((2.24 : ℝ)) = 2 :=
    pyRound_eq_floor_of _ 2 (by norm_num) (by norm_num)
  have haccept : acceptB (0 : ℝ) 50 (1/4) 62 = true := by
    rw [acceptB, decide_eq_true_eq, hpos, hround, abs_sub_lt_iff]
    constructor <;> norm_num
  rw [process_labels_single, processOne_three "A" 62 (by norm_num) (by norm_num),
    haccept, hpos, hround, degrees_zero]
  simp

theorem pipeline_63 :
    process_labels [("A", [((0 : ℝ), (0 : ℝ)), (63, 0), (100, 0)])] 3 (1/4) =
      some [⟨"A", [((0 : ℝ), (0 : ℝ)), (63, 0), (100, 0)], [], [(63, 2.26)], 0, 50, 0, 100,
        [(63, 2.26, 2, false)]⟩] := by
  have hpos : posOf (0 : ℝ) 50 63 = 2.26 := by
    rw [posOf]; norm_num
  have hround : pyRound ((2.26 : ℝ)) = 2 :=
    pyRound_eq_floor_of _ 2 (by norm_num) (by norm_num)
  have haccept : acceptB (0 : ℝ) 50 (1/4) 63 = false := by
    rw [acceptB, decide_eq_false_iff_not, hpos, hround, not_lt]
    rw [show |((2 : ℤ) : ℝ) - 2.26| = 0.26 by
      rw [abs_sub_comm, abs_of_nonneg (by norm_num)]; norm_num]
    norm_num
  rw [process_labels_single, processOne_three "A" 63 (by norm_num) (by norm_num),
    haccept, hpos, hround, degrees_zero]
  simp

end PipelineConcrete

/-- C2 (amended): on the single label "A" with points (0,0), (50.2,0),
(100,0), N = 3, T = 0.25, the pipeline yields step 50 and the interior
point 50.2 gets continuous position 2.004 (not 1.004), rounded index 2
(not 1), is accepted, and the Combined Index Set is \x7b2\x7d (not \x7b1\x7d); an
interior point at 62 (position 2.24, diff 0.24 < 0.25) is accepted, while
63 (position 2.26, diff 0.26 ≥ 0.25) is out-of-range and the Combined
Index Set of that run is empty. -/
theorem c2_pipeline_amended :
    (process_labels [("A", [((0 : ℝ), (0 : ℝ)), (50.2, 0), (100, 0)])] 3 (1/4) =
      some [⟨"A", [((0 : ℝ), (0 : ℝ)), (50.2, 0), (100, 0)], [2], [], 0, 50, 0, 100,
        [(50.2, 2.004, 2, true)]⟩]) ∧
    combinedOf [(⟨"A", [((0 : ℝ), (0 : ℝ)), (50.2, 0), (100, 0)], [2], [], 0, 50, 0, 100,
        [(50.2, 2.004, 2, true)]⟩ : LabelData String)] = [2] ∧
    (process_labels [("A", [((0 : ℝ), (0 : ℝ)), (62, 0), (100, 0)])] 3 (1/4) =
      some [⟨"A", [((0 : ℝ), (0 : ℝ)), (62, 0), (100, 0)], [2], [], 0, 50, 0, 100,
        [(62, 2.24, 2, true)]⟩]) ∧
    (process_labels [("A", [((0 : ℝ), (0 : ℝ)), (63, 0), (100, 0)])] 3 (1/4) =
      some [⟨"A", [((0 : ℝ), (0 : ℝ)), (63, 0), (100, 0)], [], [(63, 2.26)], 0, 50, 0, 100,
        [(63, 2.26, 2, false)]⟩]) ∧
    combinedOf [(⟨"A", [((0 : ℝ), (0 : ℝ)), (63, 0), (100, 0)], [], [(63, 2.26)], 0, 50, 0,
        100, [(63, 2.26, 2, false)]⟩ : LabelData String)] = [] :=
  ⟨pipeline_502, rfl, pipeline_62, pipeline_63, rfl⟩

/-- C2 counterexample: the Combined Index Set of the (0,0), (50.2,0),
(100,0) run is not \x7b1\x7d as claimed (it is \x7b2\x7d). -/
theorem c2_counterexample :
    Option.map combinedOf
        (process_labels [("A", [((0 : ℝ), (0 : ℝ)), (50.2, 0), (100, 0)])] 3 (1/4)) ≠
      some [1] := by
  rw [pipeline_502, Option.map_some']
  intro h
  have h2 : combinedOf [(⟨"A", [((0 : ℝ), (0 : ℝ)), (50.2, 0), (100, 0)], [2], [], 0, 50,
      0, 100, [(50.2, 2.004, 2, true)]⟩ : LabelData String)] = [2] := rfl
  rw [h2] at h
  have h3 : ([2] : List ℤ) = [1] := Option.some.inj h
  exact absurd h3 (by decide)

end FlawNozzle
